import Mathlib

/-
Verification of the docker-safe-sock filtering pipeline (src/main.go).

The development shallowly embeds the pure decision logic of the proxy:
the allowlist regular expression `allowedPaths`, the request gate
`authMiddleware`, the response dispatch `modifyResponse`, the inspection
redactor `filterInspectResponse` and the event classifier
`shouldKeepEvent`, together with the line-pumping loop of the event
stream filter.  JSON documents are modelled as a syntax tree whose
objects are association lists, matching the decoded form
(`map[string]interface...`) the Go code actually manipulates; the
`encoding/json` lexer itself is the trusted boundary, represented by an
`Option Json` parse result attached to each raw line or body.
-/

namespace DockerSafeSock

/-- JSON values as decoded by `encoding/json`: objects are key/value
association lists (the decoded `map[string]interface` form), arrays are
lists, and scalars are null, booleans, numbers and strings. -/
inductive Json where
  | null : Json
  | bool : Bool → Json
  | num : Int → Json
  | str : String → Json
  | arr : List Json → Json
  | obj : List (String × Json) → Json

/-- Lookup in a decoded JSON object: the Go expression `data[k]`,
returning the value bound to key `k` if any. -/
def lookupA (k : String) : List (String × Json) → Option Json
  | [] => none
  | (k', v) :: rest => if k' == k then some v else lookupA k rest

/-- Update in a decoded JSON object: the Go statement `data[k] = v`,
replacing the binding of `k` when present and inserting it otherwise. -/
def mapSet (k : String) (v : Json) : List (String × Json) → List (String × Json)
  | [] => [(k, v)]
  | (k', v') :: rest => if k' == k then (k', v) :: rest else (k', v') :: mapSet k v rest

/-- The redaction step of `filterInspectResponse` (src/main.go): if the
decoded top-level object binds "Config" to an object, that object's
"Env" entry is set to the empty list (Go: `config["Env"] = []string()`);
otherwise the document is left alone. -/
def stripEnvF (fields : List (String × Json)) : List (String × Json) :=
  match lookupA "Config" fields with
  | some (Json.obj cfg) => mapSet "Config" (Json.obj (mapSet "Env" (Json.arr []) cfg)) fields
  | _ => fields

/-- Function `filterInspectResponse` from src/main.go, at the level of one
response: a non-200 status returns the body unchanged; a 200 body that
failed to lex as JSON (`none`) propagates the decode error; a 200 body
whose JSON value is not a top-level object also fails `Decode` into a
Go map (except `null`, which decodes to a nil map and re-marshals as
`null`); a 200 object body is redacted by `stripEnvF`. -/
def filterInspectResponse (status : Nat) (body : Option Json) : Except Unit (Option Json) :=
  if status ≠ 200 then Except.ok body
  else
    match body with
    | none => Except.error ()
    | some j =>
      match j with
      | Json.obj fields => Except.ok (some (Json.obj (stripEnvF fields)))
      | Json.null => Except.ok (some Json.null)
      | _ => Except.error ()

/-- Character class `[0-9.]`, the characters accepted inside the
version segment by the `allowedPaths` regular expression. -/
def isVerChar (c : Char) : Bool := c.isDigit || c == '.'

/-- Character class `[a-zA-Z0-9_.-]`, the characters accepted inside a
container identifier by the `allowedPaths` regular expression. -/
def isIdChar (c : Char) : Bool :=
  c.isAlpha || c.isDigit || c == '_' || c == '.' || c == '-'

/-- Helper `dropPre pre s` removes the literal prefix `pre` from `s`,
returning the remainder, or `none` when `pre` is not a prefix of `s`. -/
def dropPre : List Char → List Char → Option (List Char)
  | [], s => some s
  | _ :: _, [] => none
  | p :: ps, c :: cs => if p == c then dropPre ps cs else none

/-- Helper `hasPre pre s` decides whether `pre` is a prefix of `s`
(Go `strings.HasPrefix`). -/
def hasPre : List Char → List Char → Bool
  | [], _ => true
  | _ :: _, [] => false
  | p :: ps, c :: cs => p == c && hasPre ps cs

/-- Helper `hasSubstr pat s` decides whether `pat` occurs as a contiguous
substring of `s` (Go `strings.Contains`). -/
def hasSubstr (pat : List Char) : List Char → Bool
  | [] => hasPre pat []
  | c :: cs => hasPre pat (c :: cs) || hasSubstr pat cs

/-- Helper `hasSuffixL suf s` decides whether `s` ends with `suf`
(Go `strings.HasSuffix`). -/
def hasSuffixL (suf s : List Char) : Bool := hasPre suf.reverse s.reverse

/-- The parameterised alternative `containers/[a-zA-Z0-9_.-]+/json` of
the `allowedPaths` regular expression: the literal `containers/`, a
nonempty run of identifier characters, then exactly `/json`.  Maximal
munch on the identifier is exact because a slash is never an
identifier character. -/
def matchIdJson (s : List Char) : Bool :=
  match dropPre "containers/".data s with
  | some rest =>
    !(rest.takeWhile isIdChar).isEmpty && rest.dropWhile isIdChar == "/json".data
  | none => false

/-- The alternation
`version | _ping | events | containers/json | containers/[a-zA-Z0-9_.-]+/json`
of the `allowedPaths` regular expression, matched against the whole
remainder of the path after the leading slash and optional version
segment. -/
def matchCore (s : List Char) : Bool :=
  s == "version".data || s == "_ping".data || s == "events".data ||
  s == "containers/json".data || matchIdJson s

/-- Consume the slash closing the version segment of `allowedPaths`. -/
def stripSlash : List Char → Option (List Char)
  | [] => none
  | d :: rest => if d == '/' then some rest else none

/-- The optional version group `(v[0-9.]+/)` of `allowedPaths`: strips
a leading `v`, then one or more digits-or-dots, then a slash, returning
the remainder of the path. -/
def stripVer (s : List Char) : Option (List Char) :=
  match s with
  | [] => none
  | c :: t =>
    if c == 'v' && !(t.takeWhile isVerChar).isEmpty then
      stripSlash (t.dropWhile isVerChar)
    else none

/-- The anchored regular expression `allowedPaths` from src/main.go:
a leading slash, an optional version segment `v[0-9.]+/`, then one of
the closed set of core routes, with nothing after it. -/
def allowedPathsL (p : List Char) : Bool :=
  match p with
  | [] => false
  | c :: t =>
    c == '/' &&
      (matchCore t ||
        (match stripVer t with
         | some rest => matchCore rest
         | none => false))

/-- Matching `allowedPaths.MatchString` on a request path. -/
def allowedPaths (path : String) : Bool := allowedPathsL path.data

/-- Outcome of the request gate `authMiddleware`. -/
inductive GateOutcome where
  | proceed : GateOutcome
  | methodNotAllowed : GateOutcome
  | forbidden : GateOutcome
  deriving DecidableEq

/-- HTTP status written by the gate for each outcome
(`http.StatusMethodNotAllowed` = 405, `http.StatusForbidden` = 403);
an allowed request produces no gate response. -/
def gateStatus : GateOutcome → Option Nat
  | GateOutcome.proceed => none
  | GateOutcome.methodNotAllowed => some 405
  | GateOutcome.forbidden => some 403

/-- Function `authMiddleware` from src/main.go: any method other than GET is
rejected with 405 before the path is examined; then a path not matched
by `allowedPaths` is rejected with 403; otherwise the request proceeds
to the reverse proxy. -/
def authMiddleware (method path : String) : GateOutcome :=
  if method != "GET" then GateOutcome.methodNotAllowed
  else if !allowedPaths path then GateOutcome.forbidden
  else GateOutcome.proceed

/-- Which transformation `modifyResponse` applies to a response body. -/
inductive RouteAction where
  | passThrough : RouteAction
  | inspect : RouteAction
  | events : RouteAction
  deriving DecidableEq

/-- The dispatch performed by `modifyResponse` (src/main.go) on the
request path: a path containing the substring `/containers/json` is
treated as the container-list route and passed through; otherwise a
path containing `/containers/`, ending in `/json` and not containing
`containers/json` is treated as a container inspection; otherwise a
path containing `/events` is treated as the event stream; anything else
is passed through. -/
def routeOf (p : List Char) : RouteAction :=
  if hasSubstr "/containers/json".data p then RouteAction.passThrough
  else if hasSubstr "/containers/".data p && hasSuffixL "/json".data p &&
            !hasSubstr "containers/json".data p then RouteAction.inspect
  else if hasSubstr "/events".data p then RouteAction.events
  else RouteAction.passThrough

/-- Function `modifyResponse` restricted to document-shaped (non-stream) bodies:
only the inspection route transforms the body, by
`filterInspectResponse`; the list, version and ping routes return the
body unchanged.  The event route replaces the body by a filtered
stream and is modelled separately on streams of lines. -/
def sanitizeDoc (path : List Char) (status : Nat) (body : Option Json) :
    Except Unit (Option Json) :=
  match routeOf path with
  | RouteAction.inspect => filterInspectResponse status body
  | _ => Except.ok body

/-- ASCII-insensitive key folding: `encoding/json` matches an incoming
object key to a struct field tag preferring an exact match but also
accepting a case-insensitive one; with the lower-case tags `type` and
`action` this amounts to comparing the folded key with the tag. -/
def foldKey (s : String) : List Char := s.data.map Char.toLower

/-- One step of `json.Unmarshal` into the two-field struct of
`shouldKeepEvent`: keys folding to `type` or `action` must carry a JSON
string (a JSON null leaves the field alone; any other value is an
unmarshal type error, which aborts the whole decode), later duplicates
overwrite earlier ones, and unknown keys are ignored. -/
def applyField (st : Option (String × String)) (kv : String × Json) :
    Option (String × String) :=
  match st with
  | none => none
  | some (t, a) =>
    if foldKey kv.1 == "type".data then
      match kv.2 with
      | Json.str s => some (s, a)
      | Json.null => some (t, a)
      | _ => none
    else if foldKey kv.1 == "action".data then
      match kv.2 with
      | Json.str s => some (t, s)
      | Json.null => some (t, a)
      | _ => none
    else some (t, a)

/-- Decoding `json.Unmarshal(line, &event)` for the anonymous struct with fields
`Type` and `Action` (tags `type`, `action`): a JSON object is folded
key by key in document order; top-level `null` succeeds leaving the
zero value; any other top-level JSON value is a type error. -/
def decodeEvent : Json → Option (String × String)
  | Json.obj fields => fields.foldl applyField (some ("", ""))
  | Json.null => some ("", "")
  | _ => none

/-- The classification switch of `shouldKeepEvent` on the decoded
`Type` and `Action` fields. -/
def shouldKeepDecoded (t a : String) : Bool :=
  if t == "container" &&
      (a == "start" || a == "die" || a == "pause" || a == "unpause" ||
       a == "create" || a == "destroy" || a == "rename" || a == "update" ||
       hasPre "health_status".data a.data) then true
  else if t == "network" &&
      (a == "create" || a == "destroy" || a == "connect" || a == "disconnect") then true
  else false

/-- Classification of `shouldKeepEvent` on a parsed line: a JSON value is kept when its
decoded `Type` and `Action` pass the switch; an unmarshal failure
drops the line. -/
def classify (j : Json) : Bool :=
  match decodeEvent j with
  | some (t, a) => shouldKeepDecoded t a
  | none => false

/-- One line of the upstream event stream, as produced by the
`bufio.Scanner` in `modifyResponse`: the raw bytes of the line (without
the line terminator) together with the result of lexing those bytes as
a JSON value (`none` when the line is not valid JSON).  The relation
between the two is the trusted `encoding/json` boundary. -/
structure Line where
  raw : List Char
  parsed : Option Json

/-- Function `shouldKeepEvent` from src/main.go on one raw line. -/
def shouldKeepEvent (l : Line) : Bool :=
  match l.parsed with
  | some j => classify j
  | none => false

/-- The pumping loop of the event goroutine in `modifyResponse`: each
scanned line is classified, a kept line is written to the pipe as the
original bytes followed by a newline, a dropped line is skipped and the
loop continues with the next line. -/
def pumpEvents : List Line → List Char
  | [] => []
  | l :: rest =>
    if shouldKeepEvent l then l.raw ++ '\n' :: pumpEvents rest
    else pumpEvents rest

/-- The body delivered to the client on the event route: the event
branch of `modifyResponse` installs the filtering pipe without
examining the response status, so the status argument is unused. -/
def deliveredEventBody (_status : Nat) (lines : List Line) : List Char :=
  pumpEvents lines

/-- Modelled from the spec: the surrounding reverse proxy
(`net/http/httputil`, outside src/) surfaces an error propagated from
the response sanitizer as a gateway error status to the client. -/
def modeledGatewayStatus : Nat := 502

/-- Spec wording (section 3 / section 6): the closed set of core
routes — version info, health check, event stream, container listing,
and single-container inspection whose identifier is a nonempty string
over the class alphanumeric plus underscore, dot and dash. -/
def coreSpec (s : List Char) : Prop :=
  s = "version".data ∨ s = "_ping".data ∨ s = "events".data ∨
  s = "containers/json".data ∨
  ∃ id : List Char, id ≠ [] ∧ (∀ c ∈ id, isIdChar c = true) ∧
    s = "containers/".data ++ id ++ "/json".data

/-- Spec wording of the claim, as stated: the optional API-version
segment has the form `v` followed by digits, then zero or more groups
of a dot followed by digits. -/
def verOrigP (v : List Char) : Prop :=
  ∃ (d : List Char) (gs : List (List Char)),
    d ≠ [] ∧ (∀ c ∈ d, c.isDigit = true) ∧
    (∀ g ∈ gs, g ≠ [] ∧ ∀ c ∈ g, c.isDigit = true) ∧
    v = d ++ (gs.map (fun g => '.' :: g)).flatten

/-- The allowlist as the claim states it: a core route, optionally
prefixed by a version segment of the form `v` digits (dot digits)*. -/
def specAllowedOrig (p : List Char) : Prop :=
  (∃ core, coreSpec core ∧ p = '/' :: core) ∨
  (∃ ver core, verOrigP ver ∧ coreSpec core ∧
    p = '/' :: 'v' :: (ver ++ '/' :: core))

/-- The allowlist as the code accepts it: a core route, optionally
prefixed by `v` followed by a nonempty string of digits and dots,
then a slash. -/
def specAllowedAmended (p : List Char) : Prop :=
  (∃ core, coreSpec core ∧ p = '/' :: core) ∨
  (∃ ver core, ver ≠ [] ∧ (∀ c ∈ ver, isVerChar c = true) ∧ coreSpec core ∧
    p = '/' :: 'v' :: (ver ++ '/' :: core))

/-- Spec wording: a single-resource inspection path, i.e.
`/containers/` then a nonempty restricted identifier then `/json`,
optionally version-prefixed. -/
def specInspectPath (p : List Char) : Prop :=
  (∃ id : List Char, id ≠ [] ∧ (∀ c ∈ id, isIdChar c = true) ∧
    p = "/containers/".data ++ id ++ "/json".data) ∨
  (∃ ver id : List Char, ver ≠ [] ∧ (∀ c ∈ ver, isVerChar c = true) ∧
    id ≠ [] ∧ (∀ c ∈ id, isIdChar c = true) ∧
    p = '/' :: 'v' :: (ver ++ '/' :: ("containers/".data ++ id ++ "/json".data)))

/-- Spec wording of the event keep-set: container events with the
listed actions or a `health_status` prefixed action, and network
events with the listed actions. -/
def keepSpecP (t a : String) : Prop :=
  (t = "container" ∧
    (a ∈ ["start", "die", "pause", "unpause", "create", "destroy", "rename", "update"] ∨
     ∃ suf, a.data = "health_status".data ++ suf)) ∨
  (t = "network" ∧ a ∈ ["create", "destroy", "connect", "disconnect"])

/-- A container configuration object carrying a secret environment. -/
def leakCfg : List (String × Json) := [("Env", Json.arr [Json.str "SECRET=1"])]

/-- An inspection document whose `Config.Env` holds a secret. -/
def leakDoc : Json := Json.obj [("Config", Json.obj leakCfg)]

/-- The redaction example of the spec, as decoded fields. -/
def sampleFields : List (String × Json) :=
  [("Id", Json.str "abc"),
   ("Config", Json.obj [("Env", Json.arr [Json.str "SECRET=1"]), ("Image", Json.str "x")])]

/-- The `Config` object of `sampleFields`. -/
def sampleCfg : List (String × Json) :=
  [("Env", Json.arr [Json.str "SECRET=1"]), ("Image", Json.str "x")]

/-- An upstream error document (for instance the body of a non-200
`/events` response): valid JSON, but not a keepable event. -/
def errLine : Line := ⟨"errbody".data, some (Json.obj [("message", Json.str "oops")])⟩

/-- A keepable container-start event line. -/
def goodLine : Line :=
  ⟨"goodline".data, some (Json.obj [("type", Json.str "container"), ("action", Json.str "start")])⟩

/-- A line that is not valid JSON. -/
def badLine : Line := ⟨"not json".data, none⟩

theorem dropPre_some (pre : List Char) :
    ∀ s r, dropPre pre s = some r ↔ s = pre ++ r := by
  induction pre with
  | nil => intro s r; simp [dropPre]
  | cons p ps ih =>
    intro s r
    cases s with
    | nil => simp [dropPre]
    | cons c cs =>
      simp only [dropPre, List.cons_append, List.cons.injEq]
      by_cases h : p = c
      · subst h; simp [ih]
      · simp only [beq_eq_false_iff_ne.mpr h, Bool.false_eq_true, if_false,
          reduceCtorEq, false_iff, not_and]
        exact fun hc => absurd hc.symm h

theorem hasPre_iff (pre : List Char) :
    ∀ s, hasPre pre s = true ↔ ∃ suf, s = pre ++ suf := by
  induction pre with
  | nil => intro s; simp [hasPre]
  | cons p ps ih =>
    intro s
    cases s with
    | nil => simp [hasPre]
    | cons c cs =>
      simp only [hasPre, Bool.and_eq_true, beq_iff_eq, ih, List.cons_append,
        List.cons.injEq]
      constructor
      · rintro ⟨hpc, suf, hsuf⟩; exact ⟨suf, hpc.symm, hsuf⟩
      · rintro ⟨suf, hcp, hsuf⟩; exact ⟨hcp.symm, suf, hsuf⟩

theorem span_all (p : Char → Bool) :
    ∀ (id : List Char) (x : Char) (r : List Char),
      (∀ c ∈ id, p c = true) → p x = false →
      (id ++ x :: r).takeWhile p = id ∧ (id ++ x :: r).dropWhile p = x :: r := by
  intro id
  induction id with
  | nil => intro x r _ hx; simp [List.takeWhile_cons, List.dropWhile_cons, hx]
  | cons a as ih =>
    intro x r hall hx
    have ha : p a = true := hall a (by simp)
    have h2 := ih x r (fun c hc => hall c (by simp [hc])) hx
    simp [List.takeWhile_cons, List.dropWhile_cons, ha, h2.1, h2.2]

theorem lookupA_mapSet_self (k : String) (v : Json) :
    ∀ l, lookupA k (mapSet k v l) = some v := by
  intro l
  induction l with
  | nil => simp [mapSet, lookupA]
  | cons kv rest ih =>
    obtain ⟨k', v'⟩ := kv
    by_cases h : k' = k
    · simp [mapSet, lookupA, h]
    · simp [mapSet, lookupA, beq_eq_false_iff_ne.mpr h, ih]

theorem lookupA_mapSet_ne (k k' : String) (v : Json) (hne : k' ≠ k) :
    ∀ l, lookupA k' (mapSet k v l) = lookupA k' l := by
  intro l
  induction l with
  | nil => simp [mapSet, lookupA, beq_eq_false_iff_ne.mpr (fun h => hne h.symm)]
  | cons kv rest ih =>
    obtain ⟨a, b⟩ := kv
    by_cases h : a = k
    · subst h
      simp [mapSet, lookupA, beq_eq_false_iff_ne.mpr (fun h => hne h.symm)]
    · simp [mapSet, lookupA, beq_eq_false_iff_ne.mpr h, ih]

theorem mapSet_mapSet (k : String) (v v' : Json) :
    ∀ l, mapSet k v (mapSet k v' l) = mapSet k v l := by
  intro l
  induction l with
  | nil => simp [mapSet]
  | cons kv rest ih =>
    obtain ⟨a, b⟩ := kv
    by_cases h : a = k
    · simp [mapSet, h]
    · simp [mapSet, beq_eq_false_iff_ne.mpr h, ih]

theorem matchIdJson_iff (s : List Char) :
    matchIdJson s = true ↔
      ∃ id : List Char, id ≠ [] ∧ (∀ c ∈ id, isIdChar c = true) ∧
        s = "containers/".data ++ id ++ "/json".data := by
  constructor
  · intro h
    unfold matchIdJson at h
    cases hd : dropPre "containers/".data s with
    | none => rw [hd] at h; simp at h
    | some rest =>
      rw [hd] at h
      simp only [Bool.and_eq_true, Bool.not_eq_true', beq_iff_eq] at h
      obtain ⟨h1, h2⟩ := h
      have hs : s = "containers/".data ++ rest := (dropPre_some _ _ _).mp hd
      refine ⟨rest.takeWhile isIdChar, ?_, fun c hc => List.mem_takeWhile_imp hc, ?_⟩
      · simpa [List.isEmpty_eq_false] using h1
      · rw [hs, List.append_assoc]
        congr 1
        have hsplit : rest =
            List.takeWhile isIdChar rest ++ List.dropWhile isIdChar rest :=
          (List.takeWhile_append_dropWhile isIdChar rest).symm
        rw [h2] at hsplit
        exact hsplit
  · rintro ⟨id, hne, hall, rfl⟩
    unfold matchIdJson
    have hd : dropPre "containers/".data
        ("containers/".data ++ id ++ "/json".data) = some (id ++ "/json".data) :=
      (dropPre_some _ _ _).mpr (by rw [List.append_assoc])
    rw [hd]
    show (!((id ++ "/json".data).takeWhile isIdChar).isEmpty &&
      (id ++ "/json".data).dropWhile isIdChar == "/json".data) = true
    have hjs : id ++ "/json".data = id ++ '/' :: "json".data := rfl
    have hspan := span_all isIdChar id '/' "json".data hall (by decide)
    rw [hjs, hspan.1, hspan.2]
    simp [List.isEmpty_eq_false, hne]

theorem matchCore_iff (s : List Char) : matchCore s = true ↔ coreSpec s := by
  unfold matchCore coreSpec
  simp only [Bool.or_eq_true, beq_iff_eq, matchIdJson_iff, or_assoc]

theorem stripSlash_some (l rest : List Char) :
    stripSlash l = some rest ↔ l = '/' :: rest := by
  cases l with
  | nil => simp [stripSlash]
  | cons d t =>
    by_cases hd : d = '/'
    · subst hd; simp [stripSlash]
    · simp only [stripSlash, beq_eq_false_iff_ne.mpr hd, Bool.false_eq_true,
        if_false, List.cons.injEq]
      constructor
      · intro h; cases h
      · rintro ⟨h, _⟩; exact absurd h hd

theorem stripVer_iff (t : List Char) (rest : List Char) :
    stripVer t = some rest ↔
      ∃ ver, ver ≠ [] ∧ (∀ c ∈ ver, isVerChar c = true) ∧
        t = 'v' :: (ver ++ '/' :: rest) := by
  cases t with
  | nil =>
    simp only [stripVer]
    constructor
    · intro h; cases h
    · rintro ⟨ver, _, _, h⟩; cases h
  | cons c u =>
    constructor
    · intro h
      simp only [stripVer] at h
      by_cases hc : c = 'v'
      · subst hc
        by_cases he : (u.takeWhile isVerChar).isEmpty = true
        · rw [if_neg (by simp [he])] at h; cases h
        · have he' : (u.takeWhile isVerChar).isEmpty = false := by
            simpa using he
          rw [if_pos (by simp [he'])] at h
          have hsl := (stripSlash_some _ _).mp h
          refine ⟨u.takeWhile isVerChar, ?_, fun a ha => List.mem_takeWhile_imp ha, ?_⟩
          · simpa [List.isEmpty_eq_false] using he'
          · rw [← hsl, List.takeWhile_append_dropWhile]
      · rw [if_neg (by simp [hc])] at h; cases h
    · rintro ⟨ver, hne, hall, ht⟩
      cases ht
      have hspan := span_all isVerChar ver '/' rest hall (by decide)
      simp only [stripVer]
      rw [if_pos (by simp [hspan.1, List.isEmpty_eq_false, hne]), hspan.2]
      simp [stripSlash]

theorem allowed_iff (p : List Char) : allowedPathsL p = true ↔ specAllowedAmended p := by
  cases p with
  | nil =>
    constructor
    · intro h; simp [allowedPathsL] at h
    · rintro (⟨core, _, h⟩ | ⟨ver, core, _, _, _, h⟩) <;> cases h
  | cons c t =>
    constructor
    · intro h
      simp only [allowedPathsL, Bool.and_eq_true, beq_iff_eq, Bool.or_eq_true] at h
      obtain ⟨rfl, h | h⟩ := h
      · exact Or.inl ⟨t, (matchCore_iff t).mp h, rfl⟩
      · cases hs : stripVer t with
        | none =>
          rw [hs] at h
          exact Bool.noConfusion (show (false = true) from h)
        | some rest =>
          rw [hs] at h
          replace h : matchCore rest = true := h
          obtain ⟨ver, hne, hall, ht⟩ := (stripVer_iff t rest).mp hs
          refine Or.inr ⟨ver, rest, hne, hall, (matchCore_iff rest).mp h, ?_⟩
          rw [ht]
    · intro h
      rcases h with ⟨core, hcore, heq⟩ | ⟨ver, core, hne, hall, hcore, heq⟩
      · obtain ⟨rfl, rfl⟩ : c = '/' ∧ t = core := by
          injection heq with h1 h2; exact ⟨h1, h2⟩
        simp only [allowedPathsL, beq_self_eq_true, Bool.true_and, Bool.or_eq_true]
        exact Or.inl ((matchCore_iff _).mpr hcore)
      · obtain ⟨rfl, rfl⟩ : c = '/' ∧ t = 'v' :: (ver ++ '/' :: core) := by
          injection heq with h1 h2; exact ⟨h1, h2⟩
        have hs : stripVer ('v' :: (ver ++ '/' :: core)) = some core :=
          (stripVer_iff _ core).mpr ⟨ver, hne, hall, rfl⟩
        simp only [allowedPathsL, beq_self_eq_true, Bool.true_and, Bool.or_eq_true]
        right
        rw [hs]
        exact (matchCore_iff core).mpr hcore

theorem shouldKeepDecoded_iff (t a : String) :
    shouldKeepDecoded t a = true ↔ keepSpecP t a := by
  unfold shouldKeepDecoded keepSpecP
  constructor
  · intro h
    split at h
    · rename_i hc
      simp only [Bool.and_eq_true, Bool.or_eq_true, beq_iff_eq, hasPre_iff] at hc
      refine Or.inl ⟨hc.1, ?_⟩
      have h2 := hc.2
      simp only [List.mem_cons, List.not_mem_nil, or_false]
      tauto
    · split at h
      · rename_i hc2
        simp only [Bool.and_eq_true, Bool.or_eq_true, beq_iff_eq] at hc2
        refine Or.inr ⟨hc2.1, ?_⟩
        have h2 := hc2.2
        simp only [List.mem_cons, List.not_mem_nil, or_false]
        tauto
      · exact Bool.noConfusion h
  · intro h
    rcases h with ⟨ht, hact⟩ | ⟨ht, hact⟩
    · subst ht
      have hc : ("container" == "container" &&
          (a == "start" || a == "die" || a == "pause" || a == "unpause" ||
           a == "create" || a == "destroy" || a == "rename" || a == "update" ||
           hasPre "health_status".data a.data)) = true := by
        simp only [Bool.and_eq_true, Bool.or_eq_true, beq_iff_eq,
          beq_self_eq_true, hasPre_iff, true_and]
        rcases hact with hm | hsuf
        · simp only [List.mem_cons, List.not_mem_nil, or_false] at hm
          tauto
        · tauto
      rw [if_pos hc]
    · subst ht
      have hc1 : ("network" == "container" &&
          (a == "start" || a == "die" || a == "pause" || a == "unpause" ||
           a == "create" || a == "destroy" || a == "rename" || a == "update" ||
           hasPre "health_status".data a.data)) = false := by
        simp
      have hc2 : ("network" == "network" &&
          (a == "create" || a == "destroy" || a == "connect" || a == "disconnect")) = true := by
        simp only [Bool.and_eq_true, Bool.or_eq_true, beq_iff_eq,
          beq_self_eq_true, true_and]
        simp only [List.mem_cons, List.not_mem_nil, or_false] at hact
        tauto
      rw [if_neg (by simp [hc1]), if_pos hc2]

/-- Claim C3: the Event Classifier keeps a line exactly when it decodes
to an event whose Type is container with an allowed or
health_status-prefixed Action, or whose Type is network with an allowed
Action; every other line, including one that fails to decode as JSON,
is dropped. -/
theorem c3_classifier (l : Line) :
    shouldKeepEvent l = true ↔
      ∃ t a, Option.bind l.parsed decodeEvent = some (t, a) ∧ keepSpecP t a := by
  unfold shouldKeepEvent
  cases hp : l.parsed with
  | none => simp
  | some j =>
    cases hd : decodeEvent j with
    | none => simp [classify, hd]
    | some ta =>
      obtain ⟨t, a⟩ := ta
      simp [classify, hd, shouldKeepDecoded_iff]
      constructor
      · exact fun h => ⟨t, a, ⟨rfl, rfl⟩, h⟩
      · rintro ⟨t', a', ⟨rfl, rfl⟩, h⟩
        exact h

/-- Claim C10: the two classification-relevant JSON keys are matched
case-insensitively by the decoder, so an event encoded with the
capitalized keys Type and Action is classified exactly as the same
event with lowercase keys. -/
theorem c10_case_insensitive (t a : String) :
    classify (Json.obj [("Type", Json.str t), ("Action", Json.str a)]) =
      classify (Json.obj [("type", Json.str t), ("action", Json.str a)]) := by
  have h1 : decodeEvent (Json.obj [("Type", Json.str t), ("Action", Json.str a)]) =
      some (t, a) := rfl
  have h2 : decodeEvent (Json.obj [("type", Json.str t), ("action", Json.str a)]) =
      some (t, a) := rfl
  unfold classify
  rw [h1, h2]

theorem stripEnvF_eq (fields cfg : List (String × Json))
    (h : lookupA "Config" fields = some (Json.obj cfg)) :
    stripEnvF fields =
      mapSet "Config" (Json.obj (mapSet "Env" (Json.arr []) cfg)) fields := by
  unfold stripEnvF
  rw [h]

theorem stripEnvF_eq_self (fields : List (String × Json))
    (h : ∀ cfg, lookupA "Config" fields ≠ some (Json.obj cfg)) :
    stripEnvF fields = fields := by
  unfold stripEnvF
  cases hc : lookupA "Config" fields with
  | none => rfl
  | some v =>
    cases v with
    | obj cfg => exact absurd hc (h cfg)
    | null => rfl
    | bool b => rfl
    | num n => rfl
    | str s => rfl
    | arr xs => rfl

/-- Claim C4: on any decoded JSON object, the Inspection Redactor
leaves every top-level key other than Config untouched; when Config is
bound to an object it rebinds that object's Env key to the empty array
(present whether or not it was before) and leaves every other key of
Config untouched; when no top-level Config object exists the document
is returned unchanged. -/
theorem c4_redactor (fields : List (String × Json)) :
    (∀ cfg, lookupA "Config" fields = some (Json.obj cfg) →
      ∃ cfg', lookupA "Config" (stripEnvF fields) = some (Json.obj cfg') ∧
        lookupA "Env" cfg' = some (Json.arr []) ∧
        (∀ k, k ≠ "Env" → lookupA k cfg' = lookupA k cfg) ∧
        (∀ k, k ≠ "Config" → lookupA k (stripEnvF fields) = lookupA k fields)) ∧
    ((∀ cfg, lookupA "Config" fields ≠ some (Json.obj cfg)) →
      stripEnvF fields = fields) := by
  constructor
  · intro cfg hcfg
    have he := stripEnvF_eq fields cfg hcfg
    rw [he]
    refine ⟨mapSet "Env" (Json.arr []) cfg,
      lookupA_mapSet_self _ _ _,
      lookupA_mapSet_self _ _ _,
      fun k hk => lookupA_mapSet_ne _ _ _ hk _,
      fun k hk => lookupA_mapSet_ne _ _ _ hk _⟩
  · exact stripEnvF_eq_self fields

/-- Claim C4 witness: the spec's redaction example evaluated through
the theorem. -/
theorem c4_redactor_witness :
    ∃ cfg', lookupA "Config" (stripEnvF sampleFields) = some (Json.obj cfg') ∧
      lookupA "Env" cfg' = some (Json.arr []) ∧
      lookupA "Image" cfg' = lookupA "Image" sampleCfg ∧
      lookupA "Id" (stripEnvF sampleFields) = lookupA "Id" sampleFields := by
  obtain ⟨cfg', h1, h2, h3, h4⟩ := (c4_redactor sampleFields).1 sampleCfg rfl
  exact ⟨cfg', h1, h2, h3 "Image" (by decide), h4 "Id" (by decide)⟩

/-- Claim C9: the Inspection Redactor is idempotent — redacting an
already-redacted decoded object yields the identical object. -/
theorem c9_idempotent (fields : List (String × Json)) :
    stripEnvF (stripEnvF fields) = stripEnvF fields := by
  cases hc : lookupA "Config" fields with
  | none =>
    have hns : ∀ cfg, lookupA "Config" fields ≠ some (Json.obj cfg) := by
      intro cfg h; rw [hc] at h; cases h
    rw [stripEnvF_eq_self fields hns, stripEnvF_eq_self fields hns]
  | some v =>
    cases v with
    | obj cfg =>
      have he := stripEnvF_eq fields cfg hc
      rw [he]
      have hc2 : lookupA "Config"
          (mapSet "Config" (Json.obj (mapSet "Env" (Json.arr []) cfg)) fields) =
          some (Json.obj (mapSet "Env" (Json.arr []) cfg)) :=
        lookupA_mapSet_self _ _ _
      rw [stripEnvF_eq _ _ hc2, mapSet_mapSet, mapSet_mapSet]
    | null =>
      have hns : ∀ cfg, lookupA "Config" fields ≠ some (Json.obj cfg) := by
        intro cfg h; rw [hc] at h; simp at h
      rw [stripEnvF_eq_self fields hns, stripEnvF_eq_self fields hns]
    | bool b =>
      have hns : ∀ cfg, lookupA "Config" fields ≠ some (Json.obj cfg) := by
        intro cfg h; rw [hc] at h; simp at h
      rw [stripEnvF_eq_self fields hns, stripEnvF_eq_self fields hns]
    | num n =>
      have hns : ∀ cfg, lookupA "Config" fields ≠ some (Json.obj cfg) := by
        intro cfg h; rw [hc] at h; simp at h
      rw [stripEnvF_eq_self fields hns, stripEnvF_eq_self fields hns]
    | str s =>
      have hns : ∀ cfg, lookupA "Config" fields ≠ some (Json.obj cfg) := by
        intro cfg h; rw [hc] at h; simp at h
      rw [stripEnvF_eq_self fields hns, stripEnvF_eq_self fields hns]
    | arr xs =>
      have hns : ∀ cfg, lookupA "Config" fields ≠ some (Json.obj cfg) := by
        intro cfg h; rw [hc] at h; simp at h
      rw [stripEnvF_eq_self fields hns, stripEnvF_eq_self fields hns]

theorem verOrigP_head (v : List Char) (h : verOrigP v) :
    ∃ c t, v = c :: t ∧ c.isDigit = true := by
  obtain ⟨d, gs, hd, hdig, -, rfl⟩ := h
  cases d with
  | nil => exact absurd rfl hd
  | cons c t => exact ⟨c, t ++ (gs.map (fun g => '.' :: g)).flatten, rfl, hdig c (by simp)⟩

theorem not_origAllowed : ¬ specAllowedOrig "/v./version".data := by
  rintro (⟨core, hcore, heq⟩ | ⟨ver, core, hver, hcore, heq⟩)
  · have heq' : '/' :: "v./version".data = '/' :: core := heq
    obtain rfl : core = "v./version".data := by
      injection heq' with _ h; exact h.symm
    rcases hcore with h | h | h | h | ⟨id, hne, hall, h⟩
    · exact absurd h (by decide)
    · exact absurd h (by decide)
    · exact absurd h (by decide)
    · exact absurd h (by decide)
    · have hh : 'v' :: "./version".data =
          'c' :: ("ontainers/".data ++ id ++ "/json".data) := h
      injection hh with h1 _
      exact absurd h1 (by decide)
  · have heq' : '/' :: 'v' :: '.' :: "/version".data =
        '/' :: 'v' :: (ver ++ '/' :: core) := heq
    injection heq' with _ h2
    injection h2 with _ h3
    obtain ⟨c, t, rfl, hdig⟩ := verOrigP_head ver hver
    have h6 : ('.' :: "/version".data).head? = ((c :: t) ++ '/' :: core).head? := by
      rw [h3]
    simp only [List.cons_append, List.head?_cons, Option.some.injEq] at h6
    rw [← h6] at hdig
    exact absurd hdig (by decide)

/-- Claim C2 counterexample: the code's version segment is `v[0-9.]+`,
so the gate lets GET /v./version proceed although `v.` is not of the
claimed form `v` digits (dot digits)*; the claimed characterization of
the allowlist is therefore false. -/
theorem c2_cx : ¬ (∀ method path : String,
    authMiddleware method path = GateOutcome.proceed ↔
      (method = "GET" ∧ specAllowedOrig path.data)) := by
  intro hclaim
  obtain ⟨-, hspec⟩ := (hclaim "GET" "/v./version").mp (by decide)
  exact not_origAllowed hspec

/-- Claim C2 (amended): the Allowlist Authorizer allows a request iff
its method is GET and its whole path is one of /version, /_ping,
/events, /containers/json, or /containers/ID/json with a nonempty ID
over alphanumerics plus `_.-`, each optionally prefixed by a version
segment consisting of `v` followed by a nonempty string of digits and
dots. -/
theorem c2_amended (method path : String) :
    authMiddleware method path = GateOutcome.proceed ↔
      (method = "GET" ∧ specAllowedAmended path.data) := by
  constructor
  · intro h
    unfold authMiddleware at h
    by_cases hm : method = "GET"
    · subst hm
      rw [if_neg (by simp)] at h
      by_cases ha : allowedPaths path = true
      · exact ⟨rfl, (allowed_iff path.data).mp ha⟩
      · rw [if_pos (by simp [ha])] at h
        exact GateOutcome.noConfusion h
    · rw [if_pos (by simp [hm])] at h
      exact GateOutcome.noConfusion h
  · rintro ⟨rfl, hspec⟩
    have ha : allowedPaths path = true := (allowed_iff path.data).mpr hspec
    simp [authMiddleware, ha]

/-- Claim C8: the Request Gate distinguishes three outcomes, with the
method check before path matching: a non-GET method yields 405 whatever
the path, a GET with a non-allowlisted path yields 403, and a GET with
an allowlisted path proceeds to the proxy. -/
theorem c8_gate (method path : String) :
    (method ≠ "GET" → authMiddleware method path = GateOutcome.methodNotAllowed ∧
      gateStatus (authMiddleware method path) = some 405) ∧
    (method = "GET" → allowedPaths path = false →
      authMiddleware method path = GateOutcome.forbidden ∧
      gateStatus (authMiddleware method path) = some 403) ∧
    (method = "GET" → allowedPaths path = true →
      authMiddleware method path = GateOutcome.proceed ∧
      gateStatus (authMiddleware method path) = none) ∧
    (GateOutcome.methodNotAllowed ≠ GateOutcome.forbidden ∧
     GateOutcome.methodNotAllowed ≠ GateOutcome.proceed ∧
     GateOutcome.forbidden ≠ GateOutcome.proceed) := by
  refine ⟨?_, ?_, ?_, by decide, by decide, by decide⟩
  · intro hm
    simp [authMiddleware, gateStatus, bne_iff_ne, hm]
  · intro hm ha
    subst hm
    simp [authMiddleware, gateStatus, ha]
  · intro hm ha
    subst hm
    simp [authMiddleware, gateStatus, ha]

/-- Claim C8 witness: the three outcomes at concrete requests. -/
theorem c8_gate_witness :
    authMiddleware "DELETE" "/containers/json" = GateOutcome.methodNotAllowed ∧
    authMiddleware "GET" "/containers/abc123/exec" = GateOutcome.forbidden ∧
    authMiddleware "GET" "/version" = GateOutcome.proceed :=
  ⟨((c8_gate "DELETE" "/containers/json").1 (by decide)).1,
   ((c8_gate "GET" "/containers/abc123/exec").2.1 rfl (by decide)).1,
   ((c8_gate "GET" "/version").2.2.1 rfl (by decide)).1⟩

/-- Claim C1 (code bug): GET /containers/json/json is allowed by the
gate and is a single-resource inspection path (identifier `json`), yet
the response dispatch sends it to the pass-through list branch because
the path contains the substring /containers/json, so a 200 inspection
body is delivered with its Config.Env intact — although the redactor
would have emptied it. -/
theorem c1_inspect_not_redacted :
    authMiddleware "GET" "/containers/json/json" = GateOutcome.proceed ∧
    specInspectPath "/containers/json/json".data ∧
    routeOf "/containers/json/json".data = RouteAction.passThrough ∧
    sanitizeDoc "/containers/json/json".data 200 (some leakDoc) =
      Except.ok (some leakDoc) ∧
    lookupA "Env" leakCfg = some (Json.arr [Json.str "SECRET=1"]) ∧
    stripEnvF [("Config", Json.obj leakCfg)] =
      [("Config", Json.obj [("Env", Json.arr [])])] := by
  refine ⟨by decide, ?_, by decide, rfl, rfl, rfl⟩
  exact Or.inl ⟨"json".data, by decide, by decide, by decide⟩

/-- Claim C5: the event pump emits exactly the kept subsequence of the
upstream lines, in the original order, each forwarded as the original
raw line followed by a newline; a line that fails to decode is skipped
silently and the remaining lines are still processed. -/
theorem c5_stream (lines : List Line) (bad : Line) (rest : List Line)
    (hbad : bad.parsed = none) :
    pumpEvents lines =
      ((lines.filter fun l => shouldKeepEvent l).map fun l => l.raw ++ ['\n']).flatten ∧
    List.Sublist (lines.filter fun l => shouldKeepEvent l) lines ∧
    pumpEvents (bad :: rest) = pumpEvents rest := by
  refine ⟨?_, List.filter_sublist _, ?_⟩
  · induction lines with
    | nil => rfl
    | cons l ls ih =>
      by_cases hk : shouldKeepEvent l = true
      · simp [pumpEvents, hk, List.filter_cons, ih]
      · simp [pumpEvents, hk, List.filter_cons, ih]
  · have hdrop : shouldKeepEvent bad = false := by
      unfold shouldKeepEvent
      rw [hbad]
    simp [pumpEvents, hdrop]

/-- Claim C5 witness: a malformed line followed by a keepable line. -/
theorem c5_stream_witness :
    pumpEvents [goodLine] =
      (([goodLine].filter fun l => shouldKeepEvent l).map fun l => l.raw ++ ['\n']).flatten ∧
    pumpEvents [badLine, goodLine] = pumpEvents [goodLine] := by
  have h := c5_stream [goodLine] badLine [goodLine] rfl
  exact ⟨h.1, h.2.2⟩

/-- Claim C6 counterexample: on the allowlisted /events route the
filter is installed without looking at the response status, so a
non-success upstream body — here a one-line JSON error document on a
500 response — is transformed (dropped entirely) instead of being
delivered untouched. -/
theorem c6_cx :
    allowedPaths "/events" = true ∧
    routeOf "/events".data = RouteAction.events ∧
    deliveredEventBody 500 [errLine] = [] ∧
    errLine.raw ≠ [] :=
  ⟨by decide, by decide, rfl, by decide⟩

/-- Claim C6 (amended): on every allowlisted route other than the
event stream — version, health check, collection listing and
single-resource inspection — a response whose status is not 200 is
delivered with its body untransformed; the event-stream route applies
line filtering regardless of the response status. -/
theorem c6_amended (path : List Char) (status : Nat) (body : Option Json)
    (hroute : routeOf path ≠ RouteAction.events) (hstatus : status ≠ 200) :
    sanitizeDoc path status body = Except.ok body := by
  unfold sanitizeDoc
  cases hr : routeOf path with
  | passThrough => rfl
  | inspect =>
    show filterInspectResponse status body = Except.ok body
    unfold filterInspectResponse
    rw [if_pos hstatus]
  | events => exact absurd hr hroute

/-- Claim C6 witness: a 404 inspection response passes through. -/
theorem c6_amended_witness :
    sanitizeDoc "/containers/abc/json".data 404 (some leakDoc) =
      Except.ok (some leakDoc) :=
  c6_amended "/containers/abc/json".data 404 (some leakDoc) (by decide) (by decide)

/-- Claim C7: a 200 single-resource inspection body that fails to parse
as JSON makes the redactor propagate an error rather than return a
body, and the surrounding proxy surfaces a propagated error as the
modelled gateway status, a 5xx; the unparsed body is never forwarded
as if valid. -/
theorem c7_parse_error :
    filterInspectResponse 200 none = Except.error () ∧
    (∀ b : Option Json, filterInspectResponse 200 none ≠ Except.ok b) ∧
    500 ≤ modeledGatewayStatus ∧ modeledGatewayStatus < 600 := by
  refine ⟨rfl, ?_, by decide, by decide⟩
  intro b h
  rw [show filterInspectResponse 200 none = Except.error () from rfl] at h
  exact Except.noConfusion h

end DockerSafeSock
